import Mathlib

/-!
Verification of the secure random facility in
`src/src/crypto/secure_random.cpp` (libbitcoin-system).

The C++ code is shallowly embedded as follows.

* Raw entropy is modelled as a stream `ent : Nat → Nat`: `ent i` is the i-th
  raw value produced by the calling thread's `std::random_device` engine.
  A state `RngState` records the per-thread registry of engines together with
  the number of raw draws consumed so far, so that each sampling call consumes
  a fresh stream position.
* `std::uniform_int_distribution<T>(a, b)` applied to one raw draw `e` is
  modelled as the deterministic reduction of `e` into `[a, b]`
  (`a + e % (b - a + 1)`), truncated to the width of `T`.  This realises the
  documented contract of the distribution — the result lies in `[a, b]`
  inclusive — while keeping the map from raw draws explicit and executable.
* The per-thread registry kept by `boost::thread_specific_ptr` in
  `secure_random::get_csrng` is modelled as a map from thread ids to optional
  handles plus a fresh-handle supply and a free counter per handle.
* `std::chrono` durations are modelled by their signed tick count.
  `steady_clock::duration` ticks are nanoseconds (the resolution of the
  standard library implementations libbitcoin builds against), so
  `duration_cast<milliseconds>` is truncated division by 1000000 and the
  final conversion of milliseconds back to `steady_clock::duration`
  multiplies by 1000000.  Unsigned 64-bit intermediate values are tracked
  with explicit reduction mod 2^64.
-/

namespace SecureRandom

/-- Conversion of a signed value to `uint64_t` (reduction mod 2^64), as in the
usual C++ arithmetic conversions. -/
def toU64 (x : Int) : Nat := (x % (2 ^ 64 : Int)).toNat

/-- Conversion of a `uint64_t` value to a signed 64-bit quantity (the
`std::chrono::milliseconds` representation), two's complement. -/
def ofU64 (x : Nat) : Int := if x < 2 ^ 63 then (x : Int) else (x : Int) - 2 ^ 64

/-- Truncated division of Nat casts agrees with Nat division; C++ integer
division truncates toward zero, which is `Int.tdiv`. -/
theorem tdiv_natCast (m n : Nat) : Int.tdiv (m : Int) (n : Int) = ((m / n : Nat) : Int) := rfl

/-- Value of `std::uniform_int_distribution<uint16_t>(a, b)` applied to one raw
engine draw `e`: a 16-bit quantity lying in `[a, b]` whenever `a ≤ b < 2^16`,
modelled as the raw draw reduced into the range. -/
def dist16 (a b e : Nat) : Nat := (a + e % (b - a + 1)) % 65536

/-- Embedding of `secure_random::next(uint8_t begin, uint8_t end)`
(secure_random.cpp lines 49-53): draw from a `uint16_t`-wide uniform
distribution over `[a, b]`, then narrow with `static_cast<uint8_t>`
(reduction mod 256). -/
def next8 (a b e : Nat) : Nat := dist16 a b e % 256

/-- Modelled from the spec: the generic sampler template
`secure_random::next<Integer>(begin, end)` is declared in the header
`include/bitcoin/system/crypto/secure_random.hpp`, which is not part of src/.
Per the spec it "returns a value uniformly distributed over [low, high]
inclusive" for an unsigned integer type; `w` is the bit width of that type.
One raw draw `e` is reduced into the range and the result is a machine value
of width `w`. -/
def nextW (w lo hi e : Nat) : Nat := (lo + e % (hi - lo + 1)) % 2 ^ w

/-- State of the per-thread engine registry maintained by
`secure_random::get_csrng` through its thread-static
`boost::thread_specific_ptr<std::random_device>` (secure_random.cpp lines
55-76): `slots t` is thread `t`'s thread-local pointer (`none` = null),
`nextHandle` supplies the fresh address for each `new std::random_device()`,
and `freedCount h` counts how many times the cleanup deleter has run on
handle `h`. -/
structure CsrngState where
  slots : Nat → Option Nat
  nextHandle : Nat
  freedCount : Nat → Nat

/-- Embedding of `secure_random::get_csrng` (secure_random.cpp lines 55-76) on
the success path: if the calling thread's slot is null, allocate a fresh
engine and store it in the thread's slot; otherwise return the existing
handle unchanged. -/
def getCsrng (t : Nat) (s : CsrngState) : Nat × CsrngState :=
  match s.slots t with
  | some hdl => (hdl, s)
  | none =>
    (s.nextHandle,
     { slots := fun u => if u = t then some s.nextHandle else s.slots u
       nextHandle := s.nextHandle + 1
       freedCount := s.freedCount })

/-- Teardown performed by `boost::thread_specific_ptr` when thread `t`
terminates: if the thread's slot is non-null, the deleter lambda of
`get_csrng` runs (`delete csrng;`) on the stored handle and the slot dies
with the thread; a thread with a null slot triggers no deletion. -/
def threadExit (t : Nat) (s : CsrngState) : CsrngState :=
  match s.slots t with
  | some hdl =>
    { slots := fun u => if u = t then none else s.slots u
      nextHandle := s.nextHandle
      freedCount := fun x => if x = hdl then s.freedCount hdl + 1 else s.freedCount x }
  | none => s

/-- Failure condition of the facility: the OS cannot allocate the underlying
entropy source (`new std::random_device()` fails on first acquisition). -/
inductive RandomError where
  | resourceExhausted
deriving DecidableEq

/-- Modelled from the spec: the fallible view of `secure_random::get_csrng`.
The declaration's `NOEXCEPT` macro and the exception plumbing live in headers
outside src/; the code comment at secure_random.cpp line 66 ("This throws
given insufficient resources") and the spec state that an allocation failure
is surfaced to the caller as a `ResourceExhausted` condition.  `allocOk`
records whether the single OS allocation attempt would succeed.  The
allocator is consulted exactly once and only when the thread's slot is null;
there is no retry and no fallback source. -/
def getCsrngE (t : Nat) (allocOk : Bool) (s : CsrngState) :
    Except RandomError (Nat × CsrngState) :=
  match s.slots t with
  | some hdl => .ok (hdl, s)
  | none =>
    if allocOk then
      .ok (s.nextHandle,
       { slots := fun u => if u = t then some s.nextHandle else s.slots u
         nextHandle := s.nextHandle + 1
         freedCount := s.freedCount })
    else .error .resourceExhausted

/-- Fallible view of the sampling call `secure_random::next(begin, end)`
(secure_random.cpp lines 49-53): the call first acquires the calling thread's
engine via `get_csrng`; a failure there propagates unchanged, and otherwise
the sample is drawn from the acquired engine. -/
def next8E (a b e : Nat) (t : Nat) (allocOk : Bool) (s : CsrngState) :
    Except RandomError (Nat × CsrngState) :=
  match getCsrngE t allocOk s with
  | .error er => .error er
  | .ok (_, s2) => .ok (next8 a b e, s2)

/-- Full sampler state: the per-thread registry plus the count of raw engine
draws consumed so far (the next draw reads stream position `draws`). -/
structure RngState where
  tls : CsrngState
  draws : Nat

/-- Stateful embedding of `secure_random::next(uint8_t begin, uint8_t end)`:
`distribution(get_csrng())` acquires the calling thread's engine (creating it
on first use) and consumes one raw draw from it. -/
def next8S (ent : Nat → Nat) (t : Nat) (lo hi : Nat) (st : RngState) :
    Nat × RngState :=
  let p := getCsrng t st.tls
  (next8 lo hi (ent st.draws), ⟨p.2, st.draws + 1⟩)

/-- Embedding of the zero-argument `secure_random::next()` (secure_random.cpp
lines 44-47): `next(minimum<uint8_t>, maximum<uint8_t>)`, i.e. the full byte
range `[0, 255]`. -/
def nextByteS (ent : Nat → Nat) (t : Nat) (st : RngState) : Nat × RngState :=
  next8S ent t 0 255 st

/-- Embedding of `secure_random::fill(data_chunk& out)` (secure_random.cpp
lines 36-42): `std::transform` walks the buffer first-to-last and overwrites
each element with a fresh `next()` byte, ignoring the element's old value. -/
def fillS (ent : Nat → Nat) (t : Nat) : List Nat → RngState → List Nat × RngState
  | [], st => ([], st)
  | _ :: rest, st =>
    let p := nextByteS ent t st
    let q := fillS ent t rest p.2
    (p.1 :: q.1, q.2)

/-- Stateful embedding of the sampling call
`secure_random::next<uint64_t>(zero, limit)` used by `duration`
(secure_random.cpp line 97): acquire the calling thread's engine via
`get_csrng` and consume one raw draw; the sample is the 64-bit-wide uniform
value over `[lo, hi]` (the template body is header code outside src/,
modelled from the spec via `nextW`). -/
def next64S (ent : Nat → Nat) (t : Nat) (lo hi : Nat) (st : RngState) :
    Nat × RngState :=
  let p := getCsrng t st.tls
  (nextW 64 lo hi (ent st.draws), ⟨p.2, st.draws + 1⟩)

/-- Embedding of `secure_random::duration(expiration, ratio)`
(secure_random.cpp lines 84-104).  `expNs` is the signed tick count of the
`steady_clock::duration` argument in nanoseconds; `ratioN` is the `uint8_t`
ratio.  Steps, exactly as in the source: if the ratio is zero return the
expiration unchanged; truncate the expiration to milliseconds
(`duration_cast`, truncated division by 1000000); `limit` is the truncated
quotient by the ratio; if `limit` is zero return the expiration unchanged;
otherwise draw `random_offset = next<uint64_t>(0, limit)` and return
`milliseconds(max_expire - random_offset)`.  In `max_expire - random_offset`
the usual arithmetic conversions take both operands to `uint64_t`, so the
subtraction is mod 2^64; constructing `milliseconds` from that `uint64_t`
narrows it back to the signed 64-bit representation, and the returned
`milliseconds` value converts to `steady_clock::duration` by multiplying the
tick count by 1000000. -/
def durationS (ent : Nat → Nat) (t : Nat) (expNs : Int) (ratioN : Nat)
    (st : RngState) : Int × RngState :=
  if ratioN = 0 then (expNs, st)
  else
    let maxExpire : Int := expNs.tdiv 1000000
    let limit : Int := maxExpire.tdiv (ratioN : Int)
    if limit = 0 then (expNs, st)
    else
      let p := next64S ent t 0 (toU64 limit) st
      let expires : Nat := (toU64 maxExpire + 2 ^ 64 - p.1) % 2 ^ 64
      (ofU64 expires * 1000000, p.2)

/-- Registry states reachable by the facility: every stored handle was
allocated (is below the fresh-handle supply) and no handle is stored in two
threads' slots. -/
def Wf (s : CsrngState) : Prop :=
  (∀ t hdl, s.slots t = some hdl → hdl < s.nextHandle)
  ∧ ∀ t1 t2 hdl, s.slots t1 = some hdl → s.slots t2 = some hdl → t1 = t2

/-- Registry with no thread-local engine allocated yet and no deletions. -/
def initCsrng : CsrngState := ⟨fun _ => none, 0, fun _ => 0⟩

/-- Sampler state at process start: empty registry, no draws consumed. -/
def initRng : RngState := ⟨initCsrng, 0⟩

theorem mod_succ_le (e d : Nat) : e % (d + 1) ≤ d :=
  Nat.lt_succ_iff.mp (Nat.mod_lt e (Nat.succ_pos d))

/-- Reduction of `next(0, 255)` to a plain byte reduction of the raw draw. -/
theorem next8_full_range (e : Nat) : next8 0 255 e = e % 256 := by
  simp only [next8, dist16]
  omega

/-- C4: for every pair (low, high) of the same unsigned integer width with
low ≤ high, next(low, high) returns a value v with low ≤ v ≤ high.  First
part: the `uint8_t` overload in secure_random.cpp lines 49-53; second part:
the generic sampler at every width `w`. -/
theorem next_in_range (lo hi e : Nat) (h1 : lo ≤ hi) (h2 : hi < 256) :
    (lo ≤ next8 lo hi e ∧ next8 lo hi e ≤ hi)
    ∧ ∀ w lo2 hi2 e2, lo2 ≤ hi2 → hi2 < 2 ^ w →
        lo2 ≤ nextW w lo2 hi2 e2 ∧ nextW w lo2 hi2 e2 ≤ hi2 := by
  constructor
  · have hr := mod_succ_le e (hi - lo)
    simp only [next8, dist16]
    omega
  · intro w lo2 hi2 e2 hle hlt
    have hr := mod_succ_le e2 (hi2 - lo2)
    have hsmall : lo2 + e2 % (hi2 - lo2 + 1) < 2 ^ w := by omega
    simp only [nextW, Nat.mod_eq_of_lt hsmall]
    omega

theorem next_in_range_witness :
    (10 ≤ 20 ∧ (20 : Nat) < 256)
    ∧ ((10 ≤ next8 10 20 25 ∧ next8 10 20 25 ≤ 20)
       ∧ ∀ w lo2 hi2 e2, lo2 ≤ hi2 → hi2 < 2 ^ w →
           lo2 ≤ nextW w lo2 hi2 e2 ∧ nextW w lo2 hi2 e2 ≤ hi2) :=
  ⟨⟨by decide, by decide⟩, next_in_range 10 20 25 (by decide) (by decide)⟩

/-- C5: for every value x of the sampled unsigned integer type, the
degenerate single-value range call next(x, x) returns exactly x.  First part:
the `uint8_t` overload; second part: the generic sampler at every width. -/
theorem next_single_value (x e : Nat) (h : x < 256) :
    next8 x x e = x ∧ ∀ w x2 e2, x2 < 2 ^ w → nextW w x2 x2 e2 = x2 := by
  constructor
  · simp only [next8, dist16, Nat.sub_self, Nat.zero_add, Nat.mod_one, Nat.add_zero]
    omega
  · intro w x2 e2 hx2
    simp only [nextW, Nat.sub_self, Nat.zero_add, Nat.mod_one, Nat.add_zero,
      Nat.mod_eq_of_lt hx2]

theorem next_single_value_witness :
    ((250 : Nat) < 256)
    ∧ (next8 250 250 999 = 250
       ∧ ∀ w x2 e2, x2 < 2 ^ w → nextW w x2 x2 e2 = x2) :=
  ⟨by decide, next_single_value 250 999 (by decide)⟩

/-- C7: the byte sampler draws from a 16-bit-wide uniform distribution over
[begin, end] and then narrows; for every begin ≤ end (of `uint8_t`, so
end < 256) the drawn 16-bit value is at most 255, hence the narrowing
`static_cast<uint8_t>` (reduction mod 256) never changes the value. -/
theorem next8_no_narrowing_bias (lo hi e : Nat) (h1 : lo ≤ hi) (h2 : hi < 256) :
    dist16 lo hi e < 65536 ∧ dist16 lo hi e ≤ 255 ∧ next8 lo hi e = dist16 lo hi e := by
  have hr := mod_succ_le e (hi - lo)
  simp only [next8, dist16]
  omega

theorem next8_no_narrowing_bias_witness :
    (0 ≤ 255 ∧ (255 : Nat) < 256)
    ∧ (dist16 0 255 777 < 65536 ∧ dist16 0 255 777 ≤ 255
       ∧ next8 0 255 777 = dist16 0 255 777) :=
  ⟨⟨by decide, by decide⟩, next8_no_narrowing_bias 0 255 777 (by decide) (by decide)⟩

/-- C6: `fill` writes exactly `out.length` bytes, consumes exactly one fresh
raw draw per position (position `i` is `next()` of stream position
`st.draws + i`, so the draws are in buffer order and no draw is reused), and
every written value lies in [0, 255]. -/
theorem fill_overwrites_in_order (ent : Nat → Nat) (t : Nat) (out : List Nat)
    (st : RngState) :
    (fillS ent t out st).1.length = out.length
    ∧ (fillS ent t out st).2.draws = st.draws + out.length
    ∧ ∀ i, i < out.length →
        (fillS ent t out st).1.getD i 0 = next8 0 255 (ent (st.draws + i))
        ∧ (fillS ent t out st).1.getD i 0 < 256 := by
  induction out generalizing st with
  | nil =>
    refine ⟨rfl, by simp [fillS], ?_⟩
    intro i hi
    exact absurd hi (Nat.not_lt_zero i)
  | cons x rest ih =>
    obtain ⟨ih1, ih2, ih3⟩ := ih ⟨(getCsrng t st.tls).2, st.draws + 1⟩
    refine ⟨?_, ?_, ?_⟩
    · simp only [fillS, nextByteS, next8S, List.length_cons, ih1]
    · simp only [fillS, nextByteS, next8S, List.length_cons] at ih2 ⊢
      omega
    · intro i hi
      match i with
      | 0 =>
        refine ⟨?_, ?_⟩
        · simp only [fillS, nextByteS, next8S, List.getD_cons_zero, Nat.add_zero]
        · simp only [fillS, nextByteS, next8S, List.getD_cons_zero]
          rw [next8_full_range]
          exact Nat.mod_lt _ (by omega)
      | j + 1 =>
        have hj : j < rest.length := by
          simpa [Nat.succ_lt_succ_iff] using hi
        obtain ⟨hv, hb⟩ := ih3 j hj
        dsimp only at hv hb
        have harg : st.draws + 1 + j = st.draws + (j + 1) := by omega
        rw [harg] at hv
        simp only [fillS, nextByteS, next8S, List.getD_cons_succ]
        exact ⟨hv, hb⟩

theorem fill_overwrites_in_order_witness :
    ((fillS (fun i => 300 + i) 0 [9, 9, 9] initRng).1.length = 3
     ∧ (fillS (fun i => 300 + i) 0 [9, 9, 9] initRng).2.draws = 0 + 3)
    ∧ ((1 : Nat) < 3
       ∧ (fillS (fun i => 300 + i) 0 [9, 9, 9] initRng).1.getD 1 0
           = next8 0 255 (300 + (0 + 1))
       ∧ (fillS (fun i => 300 + i) 0 [9, 9, 9] initRng).1.getD 1 0 < 256) :=
  ⟨⟨(fill_overwrites_in_order (fun i => 300 + i) 0 [9, 9, 9] initRng).1,
    (fill_overwrites_in_order (fun i => 300 + i) 0 [9, 9, 9] initRng).2.1⟩,
   by decide,
   ((fill_overwrites_in_order (fun i => 300 + i) 0 [9, 9, 9] initRng).2.2 1
     (by decide)).1,
   ((fill_overwrites_in_order (fun i => 300 + i) 0 [9, 9, 9] initRng).2.2 1
     (by decide)).2⟩

/-- C2: if the OS cannot allocate the entropy source when a sampling call
first acquires the calling thread's source, the call fails with
`ResourceExhausted`, surfaced directly to the caller; the acquisition and the
sampling call fail in exactly that situation and in no other, so the failure
is never retried internally and never replaced by a fallback source (a
successful result exists only when the slot was already populated or the
single allocation attempt succeeded). -/
theorem csrng_failure_propagates (t : Nat) (allocOk : Bool) (s : CsrngState)
    (a b e : Nat) :
    (getCsrngE t allocOk s = .error .resourceExhausted
      ↔ (s.slots t = none ∧ allocOk = false))
    ∧ (next8E a b e t allocOk s = .error .resourceExhausted
      ↔ (s.slots t = none ∧ allocOk = false)) := by
  cases hs : s.slots t with
  | some hdl =>
    simp [getCsrngE, next8E, hs]
  | none =>
    cases allocOk <;> simp [getCsrngE, next8E, hs]

theorem csrng_failure_propagates_witness :
    getCsrngE 0 false initCsrng = .error .resourceExhausted
    ∧ next8E 0 255 7 0 false initCsrng = .error .resourceExhausted :=
  ⟨(csrng_failure_propagates 0 false initCsrng 0 255 7).1.mpr ⟨rfl, rfl⟩,
   (csrng_failure_propagates 0 false initCsrng 0 255 7).2.mpr ⟨rfl, rfl⟩⟩

/-- C8: on a thread whose slot is empty, the first acquisition creates
exactly one entropy source (the slot becomes populated and exactly one fresh
handle is consumed), every subsequent acquisition on the same thread returns
the same handle and leaves the registry unchanged, and when the thread
terminates the handle is released exactly once (a second teardown of the
same thread releases nothing further) with no explicit destroy call. -/
theorem thread_local_lifecycle (t : Nat) (s : CsrngState)
    (h : s.slots t = none) :
    ((getCsrng t s).2.slots t = some (getCsrng t s).1)
    ∧ (getCsrng t s).2.nextHandle = s.nextHandle + 1
    ∧ getCsrng t (getCsrng t s).2 = getCsrng t s
    ∧ (threadExit t (getCsrng t s).2).slots t = none
    ∧ (threadExit t (getCsrng t s).2).freedCount (getCsrng t s).1
        = s.freedCount (getCsrng t s).1 + 1
    ∧ (threadExit t (threadExit t (getCsrng t s).2)).freedCount (getCsrng t s).1
        = s.freedCount (getCsrng t s).1 + 1 := by
  simp [getCsrng, threadExit, h]

theorem thread_local_lifecycle_witness :
    ((getCsrng 5 initCsrng).2.slots 5 = some (getCsrng 5 initCsrng).1)
    ∧ (getCsrng 5 initCsrng).2.nextHandle = initCsrng.nextHandle + 1
    ∧ getCsrng 5 (getCsrng 5 initCsrng).2 = getCsrng 5 initCsrng
    ∧ (threadExit 5 (getCsrng 5 initCsrng).2).slots 5 = none
    ∧ (threadExit 5 (getCsrng 5 initCsrng).2).freedCount (getCsrng 5 initCsrng).1
        = initCsrng.freedCount (getCsrng 5 initCsrng).1 + 1
    ∧ (threadExit 5 (threadExit 5 (getCsrng 5 initCsrng).2)).freedCount
        (getCsrng 5 initCsrng).1
        = initCsrng.freedCount (getCsrng 5 initCsrng).1 + 1 :=
  thread_local_lifecycle 5 initCsrng rfl

/-- C9: in any well-formed registry, two acquisitions on two distinct
threads never observe or mutate the same handle: the handles returned to the
two threads differ, the first thread's acquisition leaves the second
thread's slot untouched, and the second thread's acquisition leaves the
first thread's slot untouched — all mutable state is thread-local. -/
theorem no_cross_thread_sharing (s : CsrngState) (t1 t2 : Nat) (hw : Wf s)
    (hne : t1 ≠ t2) :
    (getCsrng t1 s).1 ≠ (getCsrng t2 (getCsrng t1 s).2).1
    ∧ (getCsrng t1 s).2.slots t2 = s.slots t2
    ∧ (getCsrng t2 (getCsrng t1 s).2).2.slots t1 = (getCsrng t1 s).2.slots t1 := by
  obtain ⟨hbound, hinj⟩ := hw
  cases hs1 : s.slots t1 with
  | some hdl1 =>
    cases hs2 : s.slots t2 with
    | some hdl2 =>
      have hne2 : hdl1 ≠ hdl2 := fun hcontra => hne (hinj t1 t2 hdl1 hs1 (hcontra ▸ hs2))
      simp [getCsrng, hs1, hs2, hne2]
    | none =>
      have hb := hbound t1 hdl1 hs1
      simp [getCsrng, hs1, hs2, hne, Ne.symm hne]
      omega
  | none =>
    cases hs2 : s.slots t2 with
    | some hdl2 =>
      have hb := hbound t2 hdl2 hs2
      simp [getCsrng, hs1, hs2, hne, Ne.symm hne]
      omega
    | none =>
      simp [getCsrng, hs1, hs2, hne, Ne.symm hne]

theorem no_cross_thread_sharing_witness :
    (Wf initCsrng ∧ (0 : Nat) ≠ 1)
    ∧ ((getCsrng 0 initCsrng).1 ≠ (getCsrng 1 (getCsrng 0 initCsrng).2).1
       ∧ (getCsrng 0 initCsrng).2.slots 1 = initCsrng.slots 1
       ∧ (getCsrng 1 (getCsrng 0 initCsrng).2).2.slots 0
           = (getCsrng 0 initCsrng).2.slots 0) :=
  ⟨⟨⟨fun _ _ hcontra => by simp [initCsrng] at hcontra,
     fun _ _ _ hcontra => by simp [initCsrng] at hcontra⟩, by decide⟩,
   no_cross_thread_sharing initCsrng 0 1
     ⟨fun _ _ hcontra => by simp [initCsrng] at hcontra,
      fun _ _ _ hcontra => by simp [initCsrng] at hcontra⟩ (by decide)⟩

/-- C3: `duration` returns the expiration unchanged in both degenerate
branches — when the ratio is zero, and when the ratio is nonzero but the
millisecond count of the expiration divided by the ratio is zero; both are
ordinary returns, not errors. -/
theorem duration_degenerate_value (ent : Nat → Nat) (t : Nat) (expNs : Int)
    (ratioN : Nat) (st : RngState) :
    (ratioN = 0 → (durationS ent t expNs ratioN st).1 = expNs)
    ∧ (ratioN ≠ 0 → (expNs.tdiv 1000000).tdiv (ratioN : Int) = 0 →
        (durationS ent t expNs ratioN st).1 = expNs) := by
  constructor
  · intro h
    simp [durationS, h]
  · intro h1 h2
    simp [durationS, h1, h2]

theorem duration_degenerate_value_witness :
    (durationS (fun _ => 7) 0 5000000 0 initRng).1 = 5000000
    ∧ (durationS (fun _ => 7) 0 5000000 10 initRng).1 = 5000000 :=
  ⟨(duration_degenerate_value (fun _ => 7) 0 5000000 0 initRng).1 rfl,
   (duration_degenerate_value (fun _ => 7) 0 5000000 10 initRng).2
     (by decide) (by decide)⟩

/-- C10: in the degenerate branches of `duration` (ratio zero, or millisecond
count divided by ratio zero) the function returns before any sampling call,
so the whole sampler state — the draw counter and the thread-local registry —
is left untouched; on the randomized branch exactly one raw draw is consumed
and the registry is touched exactly once, through the single `get_csrng`
acquisition. -/
theorem duration_degenerate_no_entropy (ent : Nat → Nat) (t : Nat)
    (expNs : Int) (ratioN : Nat) (st : RngState) :
    ((ratioN = 0 ∨ (expNs.tdiv 1000000).tdiv (ratioN : Int) = 0) →
      (durationS ent t expNs ratioN st).2 = st)
    ∧ (ratioN ≠ 0 → (expNs.tdiv 1000000).tdiv (ratioN : Int) ≠ 0 →
      (durationS ent t expNs ratioN st).2.draws = st.draws + 1
      ∧ (durationS ent t expNs ratioN st).2.tls = (getCsrng t st.tls).2) := by
  constructor
  · intro h
    rcases h with h | h
    · simp [durationS, h]
    · rcases Decidable.em (ratioN = 0) with h0 | h0
      · simp [durationS, h0]
      · simp [durationS, h0, h]
  · intro h1 h2
    simp [durationS, next64S, h1, h2]

theorem duration_degenerate_no_entropy_witness :
    (durationS (fun _ => 7) 0 5000000 0 initRng).2 = initRng
    ∧ ((durationS (fun _ => 7) 0 10000000000 4 initRng).2.draws
         = initRng.draws + 1
       ∧ (durationS (fun _ => 7) 0 10000000000 4 initRng).2.tls
         = (getCsrng 0 initRng.tls).2) :=
  ⟨(duration_degenerate_no_entropy (fun _ => 7) 0 5000000 0 initRng).1
     (Or.inl rfl),
   (duration_degenerate_no_entropy (fun _ => 7) 0 10000000000 4 initRng).2
     (by decide) (by decide)⟩

/-- C1 counterexample: at expiration 4000001 nanoseconds (4 milliseconds plus
one nanosecond, a legal nonnegative `steady_clock::duration`) and ratio 4,
the limit is milliseconds(4000001ns)/4 = 1 millisecond, which is nonzero; yet
with a raw draw selecting offset 1 the returned duration is 3000000
nanoseconds, strictly below expiration − limit = 4000001 − 1000000 = 3000001
nanoseconds, so the claimed range [expiration − limit, expiration] is
violated. -/
theorem duration_below_claimed_lower_bound :
    ¬ ((4000001 : Int) - 1 * 1000000
         ≤ (durationS (fun _ => 1) 0 4000001 4 initRng).1
       ∧ (durationS (fun _ => 1) 0 4000001 4 initRng).1 ≤ 4000001) := by
  decide

/-- C1 (amended): for every expiration ≥ 0 (within the signed 64-bit
nanosecond tick range) and nonzero ratio with nonzero limit, the returned
duration lies in [floor_ms(expiration) − limit, expiration], where
floor_ms(expiration) is the expiration truncated to whole milliseconds (so
for whole-millisecond expirations the range is exactly
[expiration − limit, expiration]); in particular the result is never
negative and never exceeds the original expiration. -/
theorem duration_within_bounds (ent : Nat → Nat) (t : Nat) (expNs : Int)
    (ratioN : Nat) (st : RngState) (h0 : 0 ≤ expNs) (h63 : expNs < 2 ^ 63)
    (hr : ratioN ≠ 0)
    (hl : (expNs.tdiv 1000000).tdiv (ratioN : Int) ≠ 0) :
    (expNs.tdiv 1000000 - (expNs.tdiv 1000000).tdiv (ratioN : Int)) * 1000000
      ≤ (durationS ent t expNs ratioN st).1
    ∧ (durationS ent t expNs ratioN st).1 ≤ expNs
    ∧ 0 ≤ (durationS ent t expNs ratioN st).1 := by
  obtain ⟨n, rfl⟩ : ∃ n : Nat, expNs = (n : Int) :=
    ⟨expNs.toNat, (Int.toNat_of_nonneg h0).symm⟩
  have hcast : (1000000 : Int) = ((1000000 : Nat) : Int) := by norm_cast
  simp only [durationS, next64S, hcast, tdiv_natCast] at hl ⊢
  rw [if_neg hr, if_neg hl]
  have hlN : n / 1000000 / ratioN ≠ 0 := by exact_mod_cast hl
  have hn63 : n < 2 ^ 63 := by exact_mod_cast h63
  have hl_le : n / 1000000 / ratioN ≤ n / 1000000 := Nat.div_le_self _ _
  have hmn : n / 1000000 * 1000000 ≤ n := Nat.div_mul_le_self _ _
  generalize hmg : n / 1000000 = m at hlN hl_le hmn ⊢
  generalize hlg : m / ratioN = l at hlN hl_le ⊢
  have htU_l : toU64 ((l : Nat) : Int) = l := by
    simp only [toU64]
    omega
  have htU_m : toU64 ((m : Nat) : Int) = m := by
    simp only [toU64]
    omega
  rw [htU_l, htU_m]
  simp only [nextW, Nat.zero_add, Nat.sub_zero]
  have hq : ent st.draws % (l + 1) ≤ l := mod_succ_le _ _
  generalize hqg : ent st.draws % (l + 1) = q at hq ⊢
  have hqq : q % 2 ^ 64 = q := Nat.mod_eq_of_lt (by omega)
  rw [hqq]
  have harg : (m + 2 ^ 64 - q) % 2 ^ 64 = m - q := by omega
  rw [harg]
  simp only [ofU64]
  rw [if_pos (show m - q < 2 ^ 63 by omega)]
  omega

theorem duration_within_bounds_witness :
    (0 ≤ (10000000000 : Int) ∧ (10000000000 : Int) < 2 ^ 63 ∧ (4 : Nat) ≠ 0
     ∧ (Int.tdiv 10000000000 1000000).tdiv ((4 : Nat) : Int) ≠ 0)
    ∧ ((Int.tdiv 10000000000 1000000
          - (Int.tdiv 10000000000 1000000).tdiv ((4 : Nat) : Int)) * 1000000
         ≤ (durationS (fun _ => 7) 0 10000000000 4 initRng).1
       ∧ (durationS (fun _ => 7) 0 10000000000 4 initRng).1 ≤ 10000000000
       ∧ 0 ≤ (durationS (fun _ => 7) 0 10000000000 4 initRng).1) :=
  ⟨⟨by decide, by decide, by decide, by decide⟩,
   duration_within_bounds (fun _ => 7) 0 10000000000 4 initRng
     (by decide) (by decide) (by decide) (by decide)⟩

end SecureRandom
